import Mathlib

/-!
Verification development for the GeoGuessr league spreadsheet builder
(`geoguessr_league_build_xlsx.py`).

The Python source is shallowly embedded below:

* Python `dict`s keyed by player name are embedded as association lists whose
  key lists are `Nodup` (a `dict` can never hold a key twice); `dict.get` is
  `List.lookup` / `List.find?`.
* Python `float` rank/Borda values are embedded as `ℚ`: every value the ranker
  produces is a half-integer, which IEEE doubles represent exactly, so the
  rational arithmetic coincides with the float arithmetic of the source.
* Python `str.strip()` / one-character `str.replace` / `str.isdigit` are
  embedded structurally on the underlying character list (`String.data`),
  which is the Python semantics of those operations.
-/

/-- The tie modes accepted by the `--tie` flag (src line 105). -/
inductive TieMode where
  | average
  | dense
  | min
  | max
deriving DecidableEq, Repr

/-- One player's row of the per-map `pts_by_player` / `time_by_player` dicts
that `compute_rank_and_borda_with_time` receives (src lines 288-292): the two
dicts share their key set, so they are embedded as one association list. -/
structure MapEntry where
  player : String
  pts : Int
  time : Int
deriving DecidableEq, Repr

/-- A `(points, time)` grouping key (src line 311). -/
abbrev RKey := Int × Int

def keyOf (e : MapEntry) : RKey := (e.pts, e.time)

/-- The sort order `key=lambda k: (-k[0], k[1])` of src line 314:
higher points first, then lower time first. -/
def keyLe (a b : RKey) : Prop := b.1 < a.1 ∨ (a.1 = b.1 ∧ a.2 ≤ b.2)

/-- Strict version of `keyLe`: `a` sorts strictly before `b`. -/
def keyLt (a b : RKey) : Prop := b.1 < a.1 ∨ (a.1 = b.1 ∧ a.2 < b.2)

instance : DecidableRel keyLe := fun a b => by unfold keyLe; infer_instance

instance : DecidableRel keyLt := fun a b => by unfold keyLt; infer_instance

instance : IsTotal RKey keyLe :=
  ⟨by intro a b; unfold keyLe; omega⟩

instance : IsTrans RKey keyLe :=
  ⟨by intro a b c; unfold keyLe; omega⟩

instance : IsAntisymm RKey keyLe :=
  ⟨by
    intro a b ha hb
    unfold keyLe at ha hb
    have h1 : a.1 = b.1 := by omega
    have h2 : a.2 = b.2 := by omega
    exact Prod.ext h1 h2⟩

theorem keyLt_irrefl (a : RKey) : ¬ keyLt a a := by unfold keyLt; omega

theorem keyLt_asymm {a b : RKey} (h : keyLt a b) : ¬ keyLt b a := by
  unfold keyLt at h ⊢; omega

theorem keyLt_trans {a b c : RKey} (h1 : keyLt a b) (h2 : keyLt b c) : keyLt a c := by
  unfold keyLt at h1 h2 ⊢; omega

theorem keyLt_of_keyLe_ne {a b : RKey} (h : keyLe a b) (hne : a ≠ b) : keyLt a b := by
  unfold keyLe at h
  unfold keyLt
  rcases h with h | ⟨h1, h2⟩
  · exact Or.inl h
  · refine Or.inr ⟨h1, lt_of_le_of_ne h2 ?_⟩
    intro h2e
    exact hne (Prod.ext h1 h2e)

theorem keyLt_ne {a b : RKey} (h : keyLt a b) : a ≠ b := by
  intro he; subst he; exact keyLt_irrefl a h

/-- The distinct `(points, time)` keys of the entries, sorted best first:
embeds `keys_sorted = sorted(groups.keys(), key=lambda k: (-k[0], k[1]))`
together with the key set of `groups` (src lines 309-314). -/
def sortedKeys (es : List MapEntry) : List RKey :=
  ((es.map keyOf).dedup).insertionSort keyLe

/-- The members of the tie group of key `k`: embeds `groups[key]`
(src lines 309-312). -/
def groupMembers (es : List MapEntry) (k : RKey) : List String :=
  (es.filter fun e => keyOf e = k).map MapEntry.player

/-- The rank value assigned to the tie group of `key` when `current_rank = cur`
(src lines 320-341): `occupied = list(range(current_rank, current_rank + k))`,
a group of size 1 gets `current_rank`, larger groups get
`sum(occupied)/len(occupied)`, `current_rank`, `min(occupied)` or
`max(occupied)` according to the tie mode.  (`min`/`max` of the nonempty
`occupied` are written with `min?`/`max?`; the `getD` default is unreachable.) -/
def groupVal (es : List MapEntry) (tm : TieMode) (key : RKey) (cur : ℕ) : ℚ :=
  let names := groupMembers es key
  let k := names.length
  let occupied := List.range' cur k
  if k = 1 then (cur : ℚ)
  else
    match tm with
    | TieMode.average => ((occupied.sum : ℕ) : ℚ) / ((occupied.length : ℕ) : ℚ)
    | TieMode.dense => (cur : ℚ)
    | TieMode.min => ((occupied.min?.getD cur : ℕ) : ℚ)
    | TieMode.max => ((occupied.max?.getD cur : ℕ) : ℚ)

/-- `current_rank = current_rank + (1 if tie_mode == "dense" else k)`
(src line 343; the size-1 branch of src line 326 adds `1`, which equals `k`). -/
def stepInc (tm : TieMode) (k : ℕ) : ℕ :=
  if tm = TieMode.dense then 1 else k

/-- The main ranking loop of `compute_rank_and_borda_with_time`
(src lines 316-343): walks the sorted keys, assigns each tie group one rank
value, and advances `current_rank`. -/
def rankAssign (es : List MapEntry) (tm : TieMode) : List RKey → ℕ → List (String × ℚ)
  | [], _ => []
  | key :: ks, cur =>
    ((groupMembers es key).map fun n => (n, groupVal es tm key cur)) ++
      rankAssign es tm ks (cur + stepInc tm (groupMembers es key).length)

/-- Embedding of `compute_rank_and_borda_with_time` (src lines 288-347).
Returns the `rank_best` and `borda` dicts as association lists; `N` is the
number of players, i.e. the number of dict keys, i.e. `es.length`. -/
def compute_rank_and_borda_with_time (es : List MapEntry) (tm : TieMode) :
    List (String × ℚ) × List (String × ℚ) :=
  if es.isEmpty then ([], [])
  else
    let rank_best := rankAssign es tm (sortedKeys es) 1
    let N : ℚ := (es.length : ℚ)
    (rank_best, rank_best.map fun pr => (pr.1, N - pr.2 + 1))

/-! ### Closed-form rank values

`strictlyBetter` counts entries that beat key `k`, `tiedCount` counts the
members of `k`'s tie group, `betterKeys` counts the distinct keys that beat
`k`.  `rankValue` is the closed form of the rank the loop assigns. -/

def strictlyBetter (es : List MapEntry) (k : RKey) : ℕ :=
  (es.filter fun e => keyLt (keyOf e) k).length

def tiedCount (es : List MapEntry) (k : RKey) : ℕ :=
  (es.filter fun e => keyOf e = k).length

def betterKeys (es : List MapEntry) (k : RKey) : ℕ :=
  ((es.map keyOf).dedup.filter fun k2 => keyLt k2 k).length

def rankValue (es : List MapEntry) (tm : TieMode) (k : RKey) : ℚ :=
  match tm with
  | TieMode.min => strictlyBetter es k + 1
  | TieMode.max => strictlyBetter es k + tiedCount es k
  | TieMode.average => strictlyBetter es k + (tiedCount es k + 1) / 2
  | TieMode.dense => betterKeys es k + 1

/-! ### Generic association-list and counting helpers -/

theorem lookup_append_or (p : String) (l1 l2 : List (String × ℚ)) :
    (l1 ++ l2).lookup p = ((l1.lookup p).or (l2.lookup p)) := by
  induction l1 with
  | nil => simp [List.lookup]
  | cons x l ih => cases x; simp only [List.cons_append, List.lookup_cons]; split <;> simp [ih]

theorem lookup_map_const (names : List String) (v : ℚ) (p : String) (hp : p ∈ names) :
    (names.map fun n => (n, v)).lookup p = some v := by
  induction names with
  | nil => simp at hp
  | cons n ns ih =>
    by_cases hpn : p = n
    · subst hpn; simp [List.lookup_cons]
    · have hb : (p == n) = false := beq_eq_false_iff_ne.2 hpn
      simp only [List.map_cons, List.lookup_cons, hb]
      exact ih ((List.mem_cons.1 hp).resolve_left hpn)

theorem lookup_map_const_none (names : List String) (v : ℚ) (p : String) (hp : p ∉ names) :
    (names.map fun n => (n, v)).lookup p = none := by
  induction names with
  | nil => simp [List.lookup]
  | cons n ns ih =>
    simp only [List.mem_cons, not_or] at hp
    have hb : (p == n) = false := beq_eq_false_iff_ne.2 hp.1
    simp only [List.map_cons, List.lookup_cons, hb]
    exact ih hp.2

theorem lookup_eq_none_of_not_mem_keys (l : List (String × ℚ)) (p : String)
    (hp : p ∉ l.map Prod.fst) : l.lookup p = none := by
  induction l with
  | nil => simp [List.lookup]
  | cons x l ih =>
    simp only [List.map_cons, List.mem_cons, not_or] at hp
    cases x with
    | mk a b =>
      have hb : (p == a) = false := beq_eq_false_iff_ne.2 hp.1
      simp only [List.lookup_cons, hb]
      exact ih hp.2

theorem mem_of_lookup_eq_some {l : List (String × ℚ)} {p : String} {v : ℚ}
    (h : l.lookup p = some v) : (p, v) ∈ l := by
  induction l with
  | nil => simp [List.lookup] at h
  | cons x l ih =>
    cases x with
    | mk a b =>
      simp only [List.lookup_cons] at h
      by_cases hpa : p = a
      · subst hpa
        simp only [beq_self_eq_true] at h
        cases h
        exact List.mem_cons_self _ _
      · have : (p == a) = false := beq_eq_false_iff_ne.2 hpa
        rw [this] at h
        exact List.mem_cons_of_mem _ (ih h)

theorem lookup_map_snd (l : List (String × ℚ)) (f : ℚ → ℚ) (p : String) :
    (l.map fun pr => (pr.1, f pr.2)).lookup p = (l.lookup p).map f := by
  induction l with
  | nil => simp [List.lookup]
  | cons x l ih =>
    cases x with
    | mk a b =>
      simp only [List.map_cons, List.lookup_cons]
      by_cases hpa : p = a
      · subst hpa; simp
      · have : (p == a) = false := beq_eq_false_iff_ne.2 hpa
        simp only [this, ih]

theorem countP_cons_mem_split_keys (l : List RKey) (key : RKey) (ks : List RKey)
    (hk : key ∉ ks) :
    l.countP (fun a => decide (a ∈ key :: ks)) =
      l.countP (fun a => decide (a ∈ ks)) + l.countP (fun a => decide (a = key)) := by
  induction l with
  | nil => simp
  | cons e l ih =>
    simp only [List.countP_cons, ih]
    by_cases h1 : e = key
    · have h2 : e ∉ ks := h1 ▸ hk
      simp [h1, h2, hk, List.mem_cons]
      omega
    · by_cases h2 : e ∈ ks
      · simp [h1, h2, List.mem_cons]
        omega
      · simp [h1, h2, List.mem_cons]

theorem countP_cons_mem_split_entries (es : List MapEntry) (key : RKey) (ks : List RKey)
    (hk : key ∉ ks) :
    es.countP (fun e => decide (keyOf e ∈ key :: ks)) =
      es.countP (fun e => decide (keyOf e ∈ ks)) + es.countP (fun e => decide (keyOf e = key)) := by
  induction es with
  | nil => simp
  | cons e l ih =>
    simp only [List.countP_cons, ih]
    by_cases h1 : keyOf e = key
    · have h2 : keyOf e ∉ ks := h1 ▸ hk
      simp [h1, h2, hk, List.mem_cons]
      omega
    · by_cases h2 : keyOf e ∈ ks
      · simp [h1, h2, List.mem_cons]
        omega
      · simp [h1, h2, List.mem_cons]

theorem countP_add_countP_compl {α : Type} (l : List α) (p q : α → Bool)
    (h : ∀ a ∈ l, p a = !q a) : l.countP p + l.countP q = l.length := by
  induction l with
  | nil => simp
  | cons e l ih =>
    have he := h e (List.mem_cons_self _ _)
    have ih' := ih fun a ha => h a (List.mem_cons_of_mem _ ha)
    simp only [List.countP_cons, List.length_cons]
    cases hq : q e <;> rw [hq] at he <;> simp [he] <;> omega

/-! ### `List.range'` arithmetic -/

theorem range'_sum_eq (a n : ℕ) : 2 * (List.range' a n).sum + n = n * (2 * a + n) := by
  induction n generalizing a with
  | zero => simp
  | succ m ih =>
    rw [List.range'_succ]
    have h := ih (a + 1)
    simp only [List.sum_cons]
    zify at h ⊢
    linear_combination h

theorem foldl_min_eq (l : List ℕ) (a : ℕ) (h : ∀ x ∈ l, a ≤ x) : l.foldl min a = a := by
  induction l generalizing a with
  | nil => rfl
  | cons x l ih =>
    have hx : min a x = a := Nat.min_eq_left (h x (List.mem_cons_self _ _))
    simp only [List.foldl_cons, hx]
    exact ih a fun y hy => h y (List.mem_cons_of_mem _ hy)

theorem range'_min?_eq (a n : ℕ) : (List.range' a (n + 1)).min? = some a := by
  rw [List.range'_succ]
  show some ((List.range' (a + 1) n).foldl min a) = some a
  rw [foldl_min_eq]
  intro x hx
  have := List.mem_range'_1.1 hx
  omega

theorem foldl_max_range' (n a b : ℕ) : (List.range' a (n + 1)).foldl max b = max b (a + n) := by
  induction n generalizing a b with
  | zero => simp [List.range'_succ]
  | succ m ih =>
    rw [List.range'_succ]
    simp only [List.foldl_cons]
    rw [ih (a + 1) (max b a)]
    omega

theorem range'_max?_eq (a n : ℕ) : (List.range' a (n + 1)).max? = some (a + n) := by
  rw [List.range'_succ]
  show some ((List.range' (a + 1) n).foldl max a) = some (a + n)
  cases n with
  | zero => simp
  | succ m =>
    rw [foldl_max_range' m (a + 1) a]
    congr 1
    omega

theorem sum_map_borda (l : List (String × ℚ)) (c : ℚ) :
    (l.map fun pr => c - pr.2 + 1).sum = (c + 1) * l.length - (l.map Prod.snd).sum := by
  induction l with
  | nil => simp
  | cons x l ih =>
    simp only [List.map_cons, List.sum_cons, ih, List.length_cons]
    push_cast
    ring

/-! ### Properties of `sortedKeys` and `groupMembers` -/

theorem sortedKeys_perm (es : List MapEntry) :
    (sortedKeys es).Perm (es.map keyOf).dedup :=
  List.perm_insertionSort keyLe _

theorem mem_sortedKeys {es : List MapEntry} {k : RKey} :
    k ∈ sortedKeys es ↔ ∃ e ∈ es, keyOf e = k := by
  rw [(sortedKeys_perm es).mem_iff, List.mem_dedup, List.mem_map]

theorem sortedKeys_nodup (es : List MapEntry) : (sortedKeys es).Nodup :=
  (sortedKeys_perm es).nodup_iff.2 (List.nodup_dedup _)

theorem sortedKeys_pairwise (es : List MapEntry) : (sortedKeys es).Pairwise keyLt := by
  have hle : (sortedKeys es).Pairwise keyLe := List.sorted_insertionSort keyLe _
  have hne : (sortedKeys es).Pairwise (fun a b => a ≠ b) := sortedKeys_nodup es
  exact (hle.and hne).imp fun h => keyLt_of_keyLe_ne h.1 h.2

theorem mem_groupMembers {es : List MapEntry} {k : RKey} {p : String} :
    p ∈ groupMembers es k ↔ ∃ e, e ∈ es ∧ e.player = p ∧ keyOf e = k := by
  simp only [groupMembers, List.mem_map, List.mem_filter, decide_eq_true_iff]
  constructor
  · rintro ⟨e, ⟨he, hk⟩, hp⟩
    exact ⟨e, he, hp, hk⟩
  · rintro ⟨e, he, hp, hk⟩
    exact ⟨e, ⟨he, hk⟩, hp⟩

theorem groupMembers_length (es : List MapEntry) (k : RKey) :
    (groupMembers es k).length = tiedCount es k := by
  simp [groupMembers, tiedCount]

theorem tiedCount_pos {es : List MapEntry} {k : RKey}
    (h : ∃ e ∈ es, keyOf e = k) : 0 < tiedCount es k := by
  obtain ⟨e, he, hk⟩ := h
  exact List.length_pos_of_mem (List.mem_filter.2 ⟨he, by simp [hk]⟩)

/-! ### The closed form of the ranking loop -/

/-- Number of already-processed items when the keys `ks` are still pending:
entries for the ordinary modes, distinct keys for `dense`. -/
def curCount (es : List MapEntry) (tm : TieMode) (ks : List RKey) : ℕ :=
  if tm = TieMode.dense then (es.map keyOf).dedup.countP (fun k => decide (k ∈ ks))
  else es.countP (fun e => decide (keyOf e ∈ ks))

def curTotal (es : List MapEntry) (tm : TieMode) : ℕ :=
  if tm = TieMode.dense then (es.map keyOf).dedup.length else es.length

theorem groupVal_eq (es : List MapEntry) (tm : TieMode) (key : RKey) (cur : ℕ)
    (ht : 0 < tiedCount es key)
    (hcur : cur = 1 + (if tm = TieMode.dense then betterKeys es key else strictlyBetter es key)) :
    groupVal es tm key cur = rankValue es tm key := by
  have hlen : (groupMembers es key).length = tiedCount es key := groupMembers_length es key
  simp only [groupVal]
  rw [hlen]
  by_cases h1 : tiedCount es key = 1
  · rw [if_pos h1]
    subst hcur
    cases tm <;> simp [rankValue, h1] <;> ring
  · rw [if_neg h1]
    obtain ⟨m, hm⟩ : ∃ m, tiedCount es key = m + 1 := ⟨tiedCount es key - 1, by omega⟩
    cases tm with
    | average =>
      rw [if_neg (by decide)] at hcur
      have hq : 2 * ((List.range' cur (tiedCount es key)).sum : ℚ) + (tiedCount es key : ℚ) =
          (tiedCount es key : ℚ) * (2 * (cur : ℚ) + (tiedCount es key : ℚ)) := by
        exact_mod_cast range'_sum_eq cur (tiedCount es key)
      have hc : (cur : ℚ) = 1 + (strictlyBetter es key : ℚ) := by exact_mod_cast hcur
      have htq : ((tiedCount es key : ℚ)) ≠ 0 := Nat.cast_ne_zero.2 (by omega)
      simp only [rankValue, List.length_range']
      rw [div_eq_iff htq]
      rw [hc] at hq
      linear_combination hq / 2
    | dense =>
      rw [if_pos rfl] at hcur
      simp only [rankValue]
      rw [hcur]; push_cast; ring
    | min =>
      rw [if_neg (by decide)] at hcur
      rw [hm, range'_min?_eq]
      simp only [rankValue, Option.getD_some]
      rw [hcur]; push_cast; ring
    | max =>
      rw [if_neg (by decide)] at hcur
      rw [hm, range'_max?_eq]
      simp only [rankValue, Option.getD_some]
      rw [hcur, hm]; push_cast; ring

theorem some_or_eq {β : Type} (v : β) (x : Option β) : (some v).or x = some v := rfl

theorem countP_eq_key_one {l : List RKey} (hnd : l.Nodup) {key : RKey} (hmem : key ∈ l) :
    l.countP (fun a => decide (a = key)) = 1 := by
  induction l with
  | nil => simp at hmem
  | cons x l ih =>
    rw [List.countP_cons]
    rcases List.mem_cons.1 hmem with h | h
    · have hx : x ∉ l := (List.nodup_cons.1 hnd).1
      have hz : l.countP (fun a => decide (a = key)) = 0 := by
        rw [List.countP_eq_zero]
        intro a ha
        simp only [decide_eq_true_iff]
        intro he
        exact hx (by rw [← h, ← he]; exact ha)
      simp [hz, h.symm]
    · have hxk : ¬ (x = key) := by
        intro he
        exact (List.nodup_cons.1 hnd).1 (he ▸ h)
      rw [ih (List.nodup_cons.1 hnd).2 h]
      simp [hxk]

theorem countP_compl_of_cov {α : Type} (l : List α) (g : α → RKey) (key : RKey) (ks₁ : List RKey)
    (hkeylt : ∀ k' ∈ ks₁, keyLt key k')
    (hcov : ∀ a ∈ l, g a ∈ key :: ks₁ ∨ (∀ k' ∈ key :: ks₁, keyLt (g a) k')) :
    l.countP (fun a => decide (keyLt (g a) key)) +
      l.countP (fun a => decide (g a ∈ key :: ks₁)) = l.length := by
  refine countP_add_countP_compl l _ _ ?_
  intro a ha
  rcases hcov a ha with hmem | hbet
  · have hnot : ¬ keyLt (g a) key := by
      rcases List.mem_cons.1 hmem with h | h
      · rw [h]; exact keyLt_irrefl key
      · exact keyLt_asymm (hkeylt _ h)
    simp [hmem, hnot]
  · have h1 : keyLt (g a) key := hbet key (List.mem_cons_self _ _)
    have h2 : g a ∉ key :: ks₁ := fun hmem => keyLt_irrefl _ (hbet _ hmem)
    simp [h1, h2]

/-- Loop invariant of the ranking loop: when the still-pending (strictly
sorted) keys are `ks` and `current_rank = cur`, every member of the tie group
of a pending key `k` ends up bound to the closed-form `rankValue`. -/
theorem rankAssign_lookup (es : List MapEntry) (tm : TieMode)
    (hnd : (es.map MapEntry.player).Nodup) :
    ∀ (ks : List RKey) (cur : ℕ),
      ks.Pairwise keyLt →
      (∀ k ∈ ks, ∃ e ∈ es, keyOf e = k) →
      (∀ e ∈ es, keyOf e ∈ ks ∨ (∀ k ∈ ks, keyLt (keyOf e) k)) →
      cur + curCount es tm ks = 1 + curTotal es tm →
      ∀ k ∈ ks, ∀ p ∈ groupMembers es k,
        (rankAssign es tm ks cur).lookup p = some (rankValue es tm k) := by
  intro ks
  induction ks with
  | nil =>
    intro cur _ _ _ _ k hk
    exact absurd hk (List.not_mem_nil k)
  | cons key ks₁ ih =>
    intro cur hpw hpres hcov hcur k hk p hp
    have hpw₁ : ks₁.Pairwise keyLt := (List.pairwise_cons.1 hpw).2
    have hkeylt : ∀ k' ∈ ks₁, keyLt key k' := (List.pairwise_cons.1 hpw).1
    have hkey_not₁ : key ∉ ks₁ := fun hmem => keyLt_irrefl key (hkeylt key hmem)
    rcases List.mem_cons.1 hk with hkk | hk₁
    · -- `k` is the head key: `p` is bound in the freshly appended block
      subst hkk
      have hpk : p ∈ groupMembers es k := hp
      have ht : 0 < tiedCount es k := tiedCount_pos (hpres k (List.mem_cons_self _ _))
      have hcov_keys : ∀ k2 ∈ (es.map keyOf).dedup,
          k2 ∈ k :: ks₁ ∨ (∀ k' ∈ k :: ks₁, keyLt k2 k') := by
        intro k2 hk2
        obtain ⟨e, he, hke⟩ := List.mem_map.1 (List.mem_dedup.1 hk2)
        rw [← hke]
        exact hcov e he
      have hcurval : cur = 1 +
          (if tm = TieMode.dense then betterKeys es k else strictlyBetter es k) := by
        by_cases htm : tm = TieMode.dense
        · rw [if_pos htm]
          rw [curCount, if_pos htm, curTotal, if_pos htm] at hcur
          have h1 := countP_compl_of_cov ((es.map keyOf).dedup) id k ks₁ hkeylt hcov_keys
          simp only [id_eq] at h1
          have h2 : betterKeys es k =
              (es.map keyOf).dedup.countP (fun k2 => decide (keyLt k2 k)) := by
            rw [betterKeys, List.countP_eq_length_filter]
          omega
        · rw [if_neg htm]
          rw [curCount, if_neg htm, curTotal, if_neg htm] at hcur
          have h1 := countP_compl_of_cov es keyOf k ks₁ hkeylt hcov
          have h2 : strictlyBetter es k =
              es.countP (fun e => decide (keyLt (keyOf e) k)) := by
            rw [strictlyBetter, List.countP_eq_length_filter]
          omega
      simp only [rankAssign]
      rw [lookup_append_or, lookup_map_const _ _ _ hpk, some_or_eq]
      exact congrArg some (groupVal_eq es tm k cur ht hcurval)
    · -- `k` is a later key: skip the head block and recurse
      have hpnot : p ∉ groupMembers es key := by
        intro hpkey
        obtain ⟨e1, he1, hp1, hke1⟩ := mem_groupMembers.1 hpkey
        obtain ⟨e2, he2, hp2, hke2⟩ := mem_groupMembers.1 hp
        have hne : key ≠ k := keyLt_ne (hkeylt k hk₁)
        have he12 : e1 = e2 := List.inj_on_of_nodup_map hnd he1 he2 (by rw [hp1, hp2])
        exact hne (by rw [← hke1, he12, hke2])
      simp only [rankAssign]
      rw [lookup_append_or, lookup_map_const_none _ _ _ hpnot, Option.none_or]
      refine ih (cur + stepInc tm (groupMembers es key).length) hpw₁
        (fun k' hk' => hpres k' (List.mem_cons_of_mem _ hk')) ?_ ?_ k hk₁ p hp
      · intro e he
        rcases hcov e he with hmem | hbet
        · rcases List.mem_cons.1 hmem with h | h
          · right; intro k' hk'; rw [h]; exact hkeylt k' hk'
          · left; exact h
        · right; intro k' hk'; exact hbet k' (List.mem_cons_of_mem _ hk')
      · rw [groupMembers_length]
        by_cases htm : tm = TieMode.dense
        · rw [stepInc, if_pos htm]
          rw [curCount, if_pos htm, curTotal, if_pos htm] at hcur
          rw [curCount, if_pos htm, curTotal, if_pos htm]
          have hsplit := countP_cons_mem_split_keys ((es.map keyOf).dedup) key ks₁ hkey_not₁
          have hkmem : key ∈ (es.map keyOf).dedup := by
            obtain ⟨e, he, hke⟩ := hpres key (List.mem_cons_self _ _)
            exact List.mem_dedup.2 (List.mem_map.2 ⟨e, he, hke⟩)
          have hone := countP_eq_key_one (List.nodup_dedup _) hkmem
          omega
        · rw [stepInc, if_neg htm]
          rw [curCount, if_neg htm, curTotal, if_neg htm] at hcur
          rw [curCount, if_neg htm, curTotal, if_neg htm]
          have hsplit := countP_cons_mem_split_entries es key ks₁ hkey_not₁
          have htied : tiedCount es key = es.countP (fun e => decide (keyOf e = key)) := by
            rw [tiedCount, List.countP_eq_length_filter]
          omega

/-- Corollary of `rankAssign_lookup`: the rank dict binds each player of the
input to the closed-form rank of their `(points, time)` key. -/
theorem rank_lookup_closed (es : List MapEntry) (tm : TieMode)
    (hnd : (es.map MapEntry.player).Nodup) {e : MapEntry} (he : e ∈ es) :
    (compute_rank_and_borda_with_time es tm).1.lookup e.player =
      some (rankValue es tm (keyOf e)) := by
  have hne : ¬ (es.isEmpty = true) := by
    simp [List.isEmpty_iff, List.ne_nil_of_mem he]
  unfold compute_rank_and_borda_with_time
  rw [if_neg hne]
  refine rankAssign_lookup es tm hnd (sortedKeys es) 1 (sortedKeys_pairwise es)
    (fun k hk => mem_sortedKeys.1 hk)
    (fun e' he' => Or.inl (mem_sortedKeys.2 ⟨e', he', rfl⟩)) ?_
    (keyOf e) (mem_sortedKeys.2 ⟨e, he, rfl⟩) e.player
    (mem_groupMembers.2 ⟨e, he, rfl, rfl⟩)
  unfold curCount curTotal
  by_cases htm : tm = TieMode.dense
  · rw [if_pos htm, if_pos htm, List.countP_eq_length.2]
    intro k hk
    exact decide_eq_true (mem_sortedKeys.2 (List.mem_map.1 (List.mem_dedup.1 hk)))
  · rw [if_neg htm, if_neg htm, List.countP_eq_length.2]
    intro e' he'
    exact decide_eq_true (mem_sortedKeys.2 ⟨e', he', rfl⟩)

/-- Corollary: the Borda dict binds each player to `N - rank + 1`. -/
theorem borda_lookup_closed (es : List MapEntry) (tm : TieMode)
    (hnd : (es.map MapEntry.player).Nodup) {e : MapEntry} (he : e ∈ es) :
    (compute_rank_and_borda_with_time es tm).2.lookup e.player =
      some ((es.length : ℚ) - rankValue es tm (keyOf e) + 1) := by
  have hr := rank_lookup_closed es tm hnd he
  have hne : ¬ (es.isEmpty = true) := by
    simp [List.isEmpty_iff, List.ne_nil_of_mem he]
  unfold compute_rank_and_borda_with_time at hr ⊢
  rw [if_neg hne] at hr ⊢
  rw [lookup_map_snd _ (fun v => (es.length : ℚ) - v + 1), hr]
  rfl

theorem groupMembers_nodup {es : List MapEntry} (hnd : (es.map MapEntry.player).Nodup)
    (k : RKey) : (groupMembers es k).Nodup := by
  have h : List.Sublist (es.filter fun e => keyOf e = k) es := List.filter_sublist es
  exact hnd.sublist (h.map MapEntry.player)

theorem groupMembers_disjoint {es : List MapEntry} (hnd : (es.map MapEntry.player).Nodup)
    {k1 k2 : RKey} (hne : k1 ≠ k2) {p : String}
    (h1 : p ∈ groupMembers es k1) (h2 : p ∈ groupMembers es k2) : False := by
  obtain ⟨e1, he1, hp1, hk1⟩ := mem_groupMembers.1 h1
  obtain ⟨e2, he2, hp2, hk2⟩ := mem_groupMembers.1 h2
  have he12 : e1 = e2 := List.inj_on_of_nodup_map hnd he1 he2 (by rw [hp1, hp2])
  exact hne (by rw [← hk1, he12, hk2])

theorem rankAssign_group_of_mem (es : List MapEntry) (tm : TieMode) :
    ∀ (ks : List RKey) (cur : ℕ), ∀ pr ∈ rankAssign es tm ks cur,
      ∃ k ∈ ks, pr.1 ∈ groupMembers es k := by
  intro ks
  induction ks with
  | nil => intro cur pr hpr; simp [rankAssign] at hpr
  | cons key ks₁ ih =>
    intro cur pr hpr
    simp only [rankAssign, List.mem_append] at hpr
    rcases hpr with h | h
    · obtain ⟨n, hn, hpr⟩ := List.mem_map.1 h
      exact ⟨key, List.mem_cons_self _ _, by rw [← hpr]; exact hn⟩
    · obtain ⟨k, hk, hmem⟩ := ih _ pr h
      exact ⟨k, List.mem_cons_of_mem _ hk, hmem⟩

theorem rankAssign_fst_mem (es : List MapEntry) (tm : TieMode) (ks : List RKey) (cur : ℕ)
    {pr : String × ℚ} (hpr : pr ∈ rankAssign es tm ks cur) :
    pr.1 ∈ es.map MapEntry.player := by
  obtain ⟨k, _, hmem⟩ := rankAssign_group_of_mem es tm ks cur pr hpr
  obtain ⟨e, he, hp, _⟩ := mem_groupMembers.1 hmem
  exact List.mem_map.2 ⟨e, he, hp⟩

theorem rankAssign_names_nodup (es : List MapEntry) (tm : TieMode)
    (hnd : (es.map MapEntry.player).Nodup) :
    ∀ (ks : List RKey) (cur : ℕ), ks.Pairwise keyLt →
      ((rankAssign es tm ks cur).map Prod.fst).Nodup := by
  intro ks
  induction ks with
  | nil => intro cur _; simp [rankAssign]
  | cons key ks₁ ih =>
    intro cur hpw
    have hkeylt : ∀ k' ∈ ks₁, keyLt key k' := (List.pairwise_cons.1 hpw).1
    simp only [rankAssign, List.map_append, List.map_map]
    have hcomp : (Prod.fst ∘ fun n : String => (n, groupVal es tm key cur)) = id := rfl
    rw [hcomp, List.map_id]
    refine (groupMembers_nodup hnd key).append (ih _ (List.pairwise_cons.1 hpw).2) ?_
    intro p hp1 hp2
    obtain ⟨pr, hpr, hfst2⟩ := List.mem_map.1 hp2
    obtain ⟨k, hk, hmem⟩ := rankAssign_group_of_mem es tm ks₁ _ pr hpr
    exact groupMembers_disjoint hnd (keyLt_ne (hkeylt k hk)) hp1 (hfst2 ▸ hmem)

theorem lookup_of_mem_nodup {l : List (String × ℚ)} (hnd : (l.map Prod.fst).Nodup)
    {pr : String × ℚ} (hpr : pr ∈ l) : l.lookup pr.1 = some pr.2 := by
  induction l with
  | nil => simp at hpr
  | cons x l ih =>
    cases x with
    | mk a b =>
      rcases List.mem_cons.1 hpr with h | h
      · subst h; simp [List.lookup_cons]
      · have hne : pr.1 ≠ a := by
          intro he
          have : a ∈ l.map Prod.fst := List.mem_map.2 ⟨pr, h, he⟩
          exact (List.nodup_cons.1 (by simpa using hnd)).1 this
        have hb : (pr.1 == a) = false := beq_eq_false_iff_ne.2 hne
        simp only [List.lookup_cons, hb]
        exact ih (List.nodup_cons.1 (by simpa using hnd)).2 h

theorem rankAssign_length (es : List MapEntry) (tm : TieMode) :
    ∀ (ks : List RKey) (cur : ℕ), ks.Pairwise keyLt →
      (rankAssign es tm ks cur).length = es.countP (fun e => decide (keyOf e ∈ ks)) := by
  intro ks
  induction ks with
  | nil => intro cur _; simp [rankAssign]
  | cons key ks₁ ih =>
    intro cur hpw
    have hkeylt : ∀ k' ∈ ks₁, keyLt key k' := (List.pairwise_cons.1 hpw).1
    have hkey_not₁ : key ∉ ks₁ := fun hmem => keyLt_irrefl key (hkeylt key hmem)
    have hsplit := countP_cons_mem_split_entries es key ks₁ hkey_not₁
    have htied : tiedCount es key = es.countP (fun e => decide (keyOf e = key)) := by
      rw [tiedCount, List.countP_eq_length_filter]
    simp only [rankAssign, List.length_append, List.length_map, groupMembers_length]
    rw [ih _ (List.pairwise_cons.1 hpw).2]
    omega

/-- Sum of all assigned rank values: under `average` (or when no key is tied)
each group's values sum to exactly its occupied positions, so the whole loop
sums to the positions `cur, cur+1, ...` it consumed. -/
theorem rankAssign_sum (es : List MapEntry) (tm : TieMode) :
    ∀ (ks : List RKey) (cur : ℕ), ks.Pairwise keyLt →
      (∀ k ∈ ks, ∃ e ∈ es, keyOf e = k) →
      (tm = TieMode.average ∨ ∀ k ∈ ks, tiedCount es k = 1) →
      ((rankAssign es tm ks cur).map Prod.snd).sum =
        (((List.range' cur (es.countP fun e => decide (keyOf e ∈ ks))).sum : ℕ) : ℚ) := by
  intro ks
  induction ks with
  | nil => intro cur _ _ _; simp [rankAssign]
  | cons key ks₁ ih =>
    intro cur hpw hpres hcase
    have hkeylt := (List.pairwise_cons.1 hpw).1
    have hkey_not₁ : key ∉ ks₁ := fun hmem => keyLt_irrefl key (hkeylt key hmem)
    have hsplit := countP_cons_mem_split_entries es key ks₁ hkey_not₁
    have htied : tiedCount es key = es.countP (fun e => decide (keyOf e = key)) := by
      rw [tiedCount, List.countP_eq_length_filter]
    have ht : 0 < tiedCount es key := tiedCount_pos (hpres key (List.mem_cons_self _ _))
    have htm1 : ¬ tiedCount es key = 1 → tm = TieMode.average := by
      intro h1
      rcases hcase with h | h
      · exact h
      · exact absurd (h key (List.mem_cons_self _ _)) h1
    simp only [rankAssign, List.map_append, List.map_map, List.sum_append]
    have hcomp : (Prod.snd ∘ fun n : String => (n, groupVal es tm key cur))
        = Function.const String (groupVal es tm key cur) := rfl
    rw [hcomp, List.map_const, List.sum_replicate, groupMembers_length]
    have hstep : stepInc tm (tiedCount es key) = tiedCount es key := by
      by_cases h1 : tiedCount es key = 1
      · rw [h1, stepInc, ite_self]
      · rw [htm1 h1, stepInc, if_neg (by decide)]
    have hblock : (tiedCount es key) • groupVal es tm key cur
        = (((List.range' cur (tiedCount es key)).sum : ℕ) : ℚ) := by
      by_cases h1 : tiedCount es key = 1
      · simp only [groupVal, groupMembers_length, h1, if_pos rfl, one_smul, List.range'_one,
          List.sum_cons, List.sum_nil]
        norm_num
      · rw [htm1 h1]
        simp only [groupVal, groupMembers_length, if_neg h1, List.length_range']
        have htq : ((tiedCount es key : ℚ)) ≠ 0 := Nat.cast_ne_zero.2 (by omega)
        rw [nsmul_eq_mul]
        field_simp
      -- (the `dense`/`min`/`max` cases cannot occur here unless the group is a singleton)
    rw [hblock, hstep,
      ih _ (List.pairwise_cons.1 hpw).2
        (fun k hk => hpres k (List.mem_cons_of_mem _ hk))
        (by
          rcases hcase with h | h
          · exact Or.inl h
          · exact Or.inr fun k hk => h k (List.mem_cons_of_mem _ hk))]
    have hT : es.countP (fun e => decide (keyOf e ∈ key :: ks₁))
        = es.countP (fun e => decide (keyOf e ∈ ks₁)) + tiedCount es key := by omega
    rw [hT]
    have happ := List.range'_append cur (tiedCount es key)
      (es.countP (fun e => decide (keyOf e ∈ ks₁))) 1
    rw [one_mul] at happ
    rw [← happ, List.sum_append]
    push_cast
    ring

/-- Number of distinct `(points, time)` groups on a map. -/
def distinctKeyCount (es : List MapEntry) : ℕ := ((es.map keyOf).dedup).length

/-- In a strictly sorted key list, the keys strictly better than the `j`-th
one are exactly its `j` predecessors. -/
theorem pairwise_filter_keyLt_length :
    ∀ (ks : List RKey), ks.Pairwise keyLt → ∀ (j : ℕ) (hj : j < ks.length),
      (ks.filter fun k2 => decide (keyLt k2 (ks.get ⟨j, hj⟩))).length = j := by
  intro ks
  induction ks with
  | nil => intro _ j hj; simp at hj
  | cons key ks₁ ih =>
    intro hpw j hj
    have hkeylt := (List.pairwise_cons.1 hpw).1
    cases j with
    | zero =>
      have hfil : ((key :: ks₁).filter fun k2 => decide (keyLt k2 key)) = [] := by
        rw [List.filter_eq_nil_iff]
        intro a ha
        simp only [decide_eq_true_iff]
        rcases List.mem_cons.1 ha with h | h
        · rw [h]; exact keyLt_irrefl key
        · exact keyLt_asymm (hkeylt a h)
      have : (key :: ks₁).get ⟨0, hj⟩ = key := rfl
      rw [this, hfil, List.length_nil]
    | succ m =>
      have hm : m < ks₁.length := by simpa using hj
      have hget : (key :: ks₁).get ⟨m + 1, hj⟩ = ks₁.get ⟨m, hm⟩ := rfl
      rw [hget]
      rw [@List.filter_cons_of_pos RKey (fun k2 => decide (keyLt k2 (ks₁.get ⟨m, hm⟩))) key ks₁
        (decide_eq_true (hkeylt _ (List.get_mem ks₁ m hm)))]
      rw [List.length_cons, ih (List.pairwise_cons.1 hpw).2 m hm]

/-- `betterKeys` of the `j`-th sorted key is `j`. -/
theorem betterKeys_get (es : List MapEntry) (j : ℕ) (hj : j < (sortedKeys es).length) :
    betterKeys es ((sortedKeys es).get ⟨j, hj⟩) = j := by
  rw [betterKeys,
    ← ((sortedKeys_perm es).filter
        (fun k2 => decide (keyLt k2 ((sortedKeys es).get ⟨j, hj⟩)))).length_eq]
  exact pairwise_filter_keyLt_length (sortedKeys es) (sortedKeys_pairwise es) j hj

theorem sortedKeys_length (es : List MapEntry) :
    (sortedKeys es).length = distinctKeyCount es :=
  (sortedKeys_perm es).length_eq

/-! ### Derived facts used by several claims -/

theorem rankValue_perm {es es2 : List MapEntry} (hperm : es.Perm es2) (tm : TieMode) (k : RKey) :
    rankValue es tm k = rankValue es2 tm k := by
  have h1 : strictlyBetter es k = strictlyBetter es2 k := (hperm.filter _).length_eq
  have h2 : tiedCount es k = tiedCount es2 k := (hperm.filter _).length_eq
  have h3 : betterKeys es k = betterKeys es2 k := (((hperm.map keyOf).dedup).filter _).length_eq
  cases tm <;> simp [rankValue, h1, h2, h3]

theorem compute_lookup_none (es : List MapEntry) (tm : TieMode) (p : String)
    (hp : p ∉ es.map MapEntry.player) :
    (compute_rank_and_borda_with_time es tm).1.lookup p = none ∧
    (compute_rank_and_borda_with_time es tm).2.lookup p = none := by
  unfold compute_rank_and_borda_with_time
  by_cases hemp : es.isEmpty = true
  · rw [if_pos hemp]; exact ⟨rfl, rfl⟩
  · rw [if_neg hemp]
    constructor
    · apply lookup_eq_none_of_not_mem_keys
      intro hmem
      obtain ⟨pr, hpr, hfst⟩ := List.mem_map.1 hmem
      exact hp (hfst ▸ rankAssign_fst_mem es tm _ _ hpr)
    · apply lookup_eq_none_of_not_mem_keys
      intro hmem
      obtain ⟨pr, hpr, hfst⟩ := List.mem_map.1 hmem
      obtain ⟨pr0, hpr0, hpr0e⟩ := List.mem_map.1 hpr
      have hfst0 : pr.1 = pr0.1 := by rw [← hpr0e]
      exact hp (by rw [← hfst, hfst0]; exact rankAssign_fst_mem es tm _ _ hpr0)

theorem lookup_cons_if {β : Type} (a k : String) (b : β) (es : List (String × β)) :
    List.lookup a ((k, b) :: es) = if a = k then some b else List.lookup a es := by
  rw [List.lookup_cons]
  by_cases h : a = k
  · have hb : (a == k) = true := beq_iff_eq.2 h
    rw [if_pos h, hb]
  · have hb : (a == k) = false := beq_eq_false_iff_ne.2 h
    rw [if_neg h, hb]

/-- Sum of the Borda points handed out on one map. -/
def bordaSum (es : List MapEntry) (tm : TieMode) : ℚ :=
  ((compute_rank_and_borda_with_time es tm).2.map Prod.snd).sum

/-! ### The three-player scenario of spec section 8 -/

def exA : MapEntry := ⟨"A", 5000, 60⟩
def exB : MapEntry := ⟨"B", 5000, 60⟩
def exC : MapEntry := ⟨"C", 4000, 90⟩
def exTie : List MapEntry := [exA, exB, exC]

/-- C1: with a tie under `min` mode, the Borda points of the three-player
scenario sum to 3+3+1 = 7, not N*(N+1)/2 = 6: the claimed conservation law
fails for the non-`average` tie modes in the presence of ties. -/
theorem C1_borda_conservation_counterexample :
    bordaSum exTie TieMode.min = 7 ∧ ¬ bordaSum exTie TieMode.min = 3 * (3 + 1) / 2 := by
  have h : bordaSum exTie TieMode.min = 7 := by
    simp [bordaSum, compute_rank_and_borda_with_time, rankAssign, sortedKeys, groupMembers,
      groupVal, stepInc, keyOf, exTie, exA, exB, exC, List.insertionSort, List.orderedInsert,
      keyLe, keyLt, List.dedup, lookup_cons_if, List.range'] <;> norm_num
  refine ⟨h, ?_⟩
  rw [h]
  norm_num

/-- C1 (amended): for every non-empty map with distinct players, the Borda
points sum to `N*(N+1)/2` under the `average` tie mode, and under every tie
mode when no two entries share the same `(points, time)` pair. -/
theorem C1_borda_conservation_amended (es : List MapEntry) (tm : TieMode)
    (hne : es ≠ []) (hnd : (es.map MapEntry.player).Nodup)
    (h : tm = TieMode.average ∨ (es.map keyOf).Nodup) :
    bordaSum es tm = (es.length : ℚ) * (es.length + 1) / 2 := by
  have hemp : ¬ (es.isEmpty = true) := by simp [List.isEmpty_iff, hne]
  have hcase : tm = TieMode.average ∨ ∀ k ∈ sortedKeys es, tiedCount es k = 1 := by
    rcases h with h | h
    · exact Or.inl h
    · refine Or.inr fun k hk => ?_
      have hkm : k ∈ es.map keyOf := List.mem_map.2 (mem_sortedKeys.1 hk)
      have : tiedCount es k = (es.map keyOf).countP (fun x => decide (x = k)) := by
        rw [tiedCount, ← List.countP_eq_length_filter, List.countP_map]
        rfl
      rw [this, countP_eq_key_one h hkm]
  have hT : es.countP (fun e => decide (keyOf e ∈ sortedKeys es)) = es.length :=
    List.countP_eq_length.2 fun e he => decide_eq_true (mem_sortedKeys.2 ⟨e, he, rfl⟩)
  have hsum := rankAssign_sum es tm (sortedKeys es) 1 (sortedKeys_pairwise es)
    (fun k hk => mem_sortedKeys.1 hk) hcase
  rw [hT] at hsum
  have hlen := rankAssign_length es tm (sortedKeys es) 1 (sortedKeys_pairwise es)
  rw [hT] at hlen
  have hrs := range'_sum_eq 1 es.length
  have hrsq : 2 * ((List.range' 1 es.length).sum : ℚ) + (es.length : ℚ) =
      (es.length : ℚ) * (2 * 1 + (es.length : ℚ)) := by exact_mod_cast hrs
  unfold bordaSum compute_rank_and_borda_with_time
  rw [if_neg hemp]
  have hmm : ((rankAssign es tm (sortedKeys es) 1).map
      (fun pr => ((es.length : ℚ) - pr.2 + 1))).sum =
      ((es.length : ℚ) + 1) * (rankAssign es tm (sortedKeys es) 1).length -
        ((rankAssign es tm (sortedKeys es) 1).map Prod.snd).sum :=
    sum_map_borda _ _
  simp only [List.map_map]
  have hcomp : (Prod.snd ∘ fun pr : String × ℚ => (pr.1, (es.length : ℚ) - pr.2 + 1))
      = fun pr : String × ℚ => (es.length : ℚ) - pr.2 + 1 := rfl
  rw [hcomp, hmm, hlen, hsum]
  linear_combination -hrsq / 2

/-- C2: under `dense` the code computes Borda `N - rank + 1` with `N` the
number of players, so the tied winners A and B get Borda 3 (the spec claims 2)
and C gets Borda 2 (the spec claims 1). -/
theorem C2_scenario_counterexample :
    ((compute_rank_and_borda_with_time exTie TieMode.dense).2.lookup "A" = some 3 ∧
     (compute_rank_and_borda_with_time exTie TieMode.dense).2.lookup "C" = some 2) ∧
    ¬ ((compute_rank_and_borda_with_time exTie TieMode.dense).2.lookup "A" = some 2 ∧
       (compute_rank_and_borda_with_time exTie TieMode.dense).2.lookup "C" = some 1) := by
  have h : (compute_rank_and_borda_with_time exTie TieMode.dense).2.lookup "A" = some 3 ∧
      (compute_rank_and_borda_with_time exTie TieMode.dense).2.lookup "C" = some 2 := by
    constructor <;>
      simp [compute_rank_and_borda_with_time, rankAssign, sortedKeys, groupMembers,
        groupVal, stepInc, keyOf, exTie, exA, exB, exC, List.insertionSort, List.orderedInsert,
        keyLe, keyLt, List.dedup, lookup_cons_if, List.range'] <;> norm_num
  refine ⟨h, ?_⟩
  rintro ⟨h2, _⟩
  rw [h.1] at h2
  norm_num at h2

/-- C2 (amended): the scenario values the code actually produces — ranks as
the spec claims for all three modes; Borda as claimed for `average` and `min`,
but `3, 3, 2` (not `2, 2, 1`) under `dense`. -/
theorem C2_scenario_amended :
    ((compute_rank_and_borda_with_time exTie TieMode.average).1.lookup "A" = some (3/2) ∧
     (compute_rank_and_borda_with_time exTie TieMode.average).1.lookup "B" = some (3/2) ∧
     (compute_rank_and_borda_with_time exTie TieMode.average).1.lookup "C" = some 3 ∧
     (compute_rank_and_borda_with_time exTie TieMode.average).2.lookup "A" = some (5/2) ∧
     (compute_rank_and_borda_with_time exTie TieMode.average).2.lookup "B" = some (5/2) ∧
     (compute_rank_and_borda_with_time exTie TieMode.average).2.lookup "C" = some 1) ∧
    ((compute_rank_and_borda_with_time exTie TieMode.min).1.lookup "A" = some 1 ∧
     (compute_rank_and_borda_with_time exTie TieMode.min).1.lookup "B" = some 1 ∧
     (compute_rank_and_borda_with_time exTie TieMode.min).1.lookup "C" = some 3 ∧
     (compute_rank_and_borda_with_time exTie TieMode.min).2.lookup "A" = some 3 ∧
     (compute_rank_and_borda_with_time exTie TieMode.min).2.lookup "B" = some 3 ∧
     (compute_rank_and_borda_with_time exTie TieMode.min).2.lookup "C" = some 1) ∧
    ((compute_rank_and_borda_with_time exTie TieMode.dense).1.lookup "A" = some 1 ∧
     (compute_rank_and_borda_with_time exTie TieMode.dense).1.lookup "B" = some 1 ∧
     (compute_rank_and_borda_with_time exTie TieMode.dense).1.lookup "C" = some 2 ∧
     (compute_rank_and_borda_with_time exTie TieMode.dense).2.lookup "A" = some 3 ∧
     (compute_rank_and_borda_with_time exTie TieMode.dense).2.lookup "B" = some 3 ∧
     (compute_rank_and_borda_with_time exTie TieMode.dense).2.lookup "C" = some 2) := by
  refine ⟨⟨?_, ?_, ?_, ?_, ?_, ?_⟩, ⟨?_, ?_, ?_, ?_, ?_, ?_⟩, ⟨?_, ?_, ?_, ?_, ?_, ?_⟩⟩ <;>
    simp [compute_rank_and_borda_with_time, rankAssign, sortedKeys, groupMembers,
      groupVal, stepInc, keyOf, exTie, exA, exB, exC, List.insertionSort, List.orderedInsert,
      keyLe, keyLt, List.dedup, lookup_cons_if, List.range'] <;> norm_num

/-- C4: shuffling the input entry order does not change any player's rank or
Borda value, for every tie mode. -/
theorem C4_order_independence (es es2 : List MapEntry) (tm : TieMode)
    (hperm : es.Perm es2) (hnd : (es.map MapEntry.player).Nodup) (p : String) :
    (compute_rank_and_borda_with_time es tm).1.lookup p =
      (compute_rank_and_borda_with_time es2 tm).1.lookup p ∧
    (compute_rank_and_borda_with_time es tm).2.lookup p =
      (compute_rank_and_borda_with_time es2 tm).2.lookup p := by
  have hnd2 : (es2.map MapEntry.player).Nodup := ((hperm.map MapEntry.player).nodup_iff).1 hnd
  by_cases hp : ∃ e ∈ es, e.player = p
  · obtain ⟨e, he, hpe⟩ := hp
    subst hpe
    have he2 : e ∈ es2 := hperm.subset he
    constructor
    · rw [rank_lookup_closed es tm hnd he, rank_lookup_closed es2 tm hnd2 he2,
        rankValue_perm hperm]
    · rw [borda_lookup_closed es tm hnd he, borda_lookup_closed es2 tm hnd2 he2,
        rankValue_perm hperm, hperm.length_eq]
  · have hp1 : p ∉ es.map MapEntry.player := by
      intro hmem
      obtain ⟨e, he, hpe⟩ := List.mem_map.1 hmem
      exact hp ⟨e, he, hpe⟩
    have hp2 : p ∉ es2.map MapEntry.player := by
      intro hmem
      exact hp1 ((hperm.map MapEntry.player).mem_iff.2 hmem)
    obtain ⟨h1, h2⟩ := compute_lookup_none es tm p hp1
    obtain ⟨h3, h4⟩ := compute_lookup_none es2 tm p hp2
    rw [h1, h2, h3, h4]
    exact ⟨rfl, rfl⟩

/-- C6: for every player, the rank under `min` is at most the rank under
`average`, which is at most the rank under `max`. -/
theorem C6_min_le_average_le_max (es : List MapEntry)
    (hnd : (es.map MapEntry.player).Nodup) (e : MapEntry) (he : e ∈ es) :
    ∃ rmin ravg rmax : ℚ,
      (compute_rank_and_borda_with_time es TieMode.min).1.lookup e.player = some rmin ∧
      (compute_rank_and_borda_with_time es TieMode.average).1.lookup e.player = some ravg ∧
      (compute_rank_and_borda_with_time es TieMode.max).1.lookup e.player = some rmax ∧
      rmin ≤ ravg ∧ ravg ≤ rmax := by
  have ht : 0 < tiedCount es (keyOf e) := tiedCount_pos ⟨e, he, rfl⟩
  have htq : (1 : ℚ) ≤ (tiedCount es (keyOf e) : ℚ) := by exact_mod_cast ht
  refine ⟨_, _, _, rank_lookup_closed es _ hnd he, rank_lookup_closed es _ hnd he,
    rank_lookup_closed es _ hnd he, ?_, ?_⟩
  · simp only [rankValue]
    linarith
  · simp only [rankValue]
    linarith

/-- C7: under `dense`, the set of rank values handed out on a non-empty map is
exactly `{1, ..., G}` with `G` the number of distinct `(points, time)` groups. -/
theorem C7_dense_ranks_no_gaps (es : List MapEntry) (hne : es ≠ [])
    (hnd : (es.map MapEntry.player).Nodup) (q : ℚ) :
    (∃ pr ∈ (compute_rank_and_borda_with_time es TieMode.dense).1, pr.2 = q) ↔
      ∃ i : ℕ, 1 ≤ i ∧ i ≤ distinctKeyCount es ∧ q = (i : ℚ) := by
  have hemp : ¬ (es.isEmpty = true) := by simp [List.isEmpty_iff, hne]
  constructor
  · rintro ⟨pr, hpr, hq⟩
    have hpr' : pr ∈ rankAssign es TieMode.dense (sortedKeys es) 1 := by
      rw [compute_rank_and_borda_with_time, if_neg hemp] at hpr
      exact hpr
    obtain ⟨k, hk, hmem⟩ := rankAssign_group_of_mem es TieMode.dense _ _ pr hpr'
    obtain ⟨e, he, hpe, hke⟩ := mem_groupMembers.1 hmem
    have hlk : (compute_rank_and_borda_with_time es TieMode.dense).1.lookup pr.1 =
        some (rankValue es TieMode.dense k) := by
      rw [← hpe, ← hke]
      exact rank_lookup_closed es TieMode.dense hnd he
    have hlk2 : (compute_rank_and_borda_with_time es TieMode.dense).1.lookup pr.1 =
        some pr.2 := by
      rw [compute_rank_and_borda_with_time, if_neg hemp]
      exact lookup_of_mem_nodup
        (rankAssign_names_nodup es TieMode.dense hnd _ _ (sortedKeys_pairwise es)) hpr'
    have hval : pr.2 = rankValue es TieMode.dense k := by
      rw [hlk] at hlk2
      exact (Option.some.inj hlk2).symm
    obtain ⟨⟨j, hj⟩, hget⟩ := List.mem_iff_get.1 hk
    have hbk : betterKeys es k = j := by rw [← hget]; exact betterKeys_get es j hj
    refine ⟨j + 1, by omega, ?_, ?_⟩
    · have := sortedKeys_length es
      omega
    · rw [← hq, hval]
      simp only [rankValue, hbk]
      push_cast
      ring
  · rintro ⟨i, hi1, hiG, hq⟩
    have hj : i - 1 < (sortedKeys es).length := by
      rw [sortedKeys_length]; omega
    obtain ⟨e, he, hke⟩ := mem_sortedKeys.1 (List.get_mem (sortedKeys es) (i - 1) hj)
    have hlk : (compute_rank_and_borda_with_time es TieMode.dense).1.lookup e.player =
        some (rankValue es TieMode.dense (keyOf e)) :=
      rank_lookup_closed es TieMode.dense hnd he
    refine ⟨(e.player, rankValue es TieMode.dense (keyOf e)),
      mem_of_lookup_eq_some hlk, ?_⟩
    have hbk : betterKeys es (keyOf e) = i - 1 := by
      rw [hke]
      exact betterKeys_get es (i - 1) hj
    simp only [rankValue, hbk, hq]
    rw [Nat.cast_sub hi1]
    push_cast
    ring

/-! ### Pipeline data model -/

/-- Embedding of the `Entry` dataclass (src lines 67-79). -/
structure Entry where
  week_label : String
  map_index : ℕ
  map_url : String
  map_token : String
  map_name : String
  rule_text : String
  player : String
  total_pts : Int
  total_time : Int
  played_at_epoch : Option Int
deriving DecidableEq, Repr

/-- The per-entry keep decision of `filter_entries_by_deadlines`
(src lines 626-639): no deadline for the week keeps the entry, an unknown
`played_at_epoch` keeps it iff `keep_missing_time`, otherwise the entry is
kept iff `played_at_epoch <= dl`. -/
def keepEntry (deadlines_epoch_by_week : List (String × Int)) (keep_missing_time : Bool)
    (e : Entry) : Bool :=
  match deadlines_epoch_by_week.lookup e.week_label with
  | none => true
  | some dl =>
    match e.played_at_epoch with
    | none => keep_missing_time
    | some t => t ≤ dl

/-- Embedding of `filter_entries_by_deadlines` (src lines 620-640): the loop
appends exactly the entries `keepEntry` accepts, in order. -/
def filter_entries_by_deadlines (entries : List Entry)
    (deadlines_epoch_by_week : List (String × Int)) (keep_missing_time : Bool) : List Entry :=
  entries.filter (keepEntry deadlines_epoch_by_week keep_missing_time)

/-- Group-key order of `df.groupby(["week", "map_index"], sort=True)`
(src line 681). -/
def wmLe (a b : String × ℕ) : Prop := a.1 < b.1 ∨ (a.1 = b.1 ∧ a.2 ≤ b.2)

instance : DecidableRel wmLe := fun a b => by unfold wmLe; infer_instance

/-- The distinct `(week, map_index)` group keys, in sorted group order. -/
def groupKeys (entries : List Entry) : List (String × ℕ) :=
  ((entries.map fun e => (e.week_label, e.map_index)).dedup).insertionSort wmLe

/-- The rows `g` of one `(week, map_index)` group (src line 681). -/
def mapGroup (entries : List Entry) (w : String) (mi : ℕ) : List Entry :=
  entries.filter fun e => e.week_label = w ∧ e.map_index = mi

/-- Python `dict` insertion keyed by player: replace the first binding of the
key (a dict keeps the key's original insertion position) or append a new one.
Embeds one step of the dict comprehensions of src lines 682-683. -/
def dictInsert : List MapEntry → MapEntry → List MapEntry
  | [], x => [x]
  | d :: ds, x =>
    if d.player == x.player then ⟨d.player, x.pts, x.time⟩ :: ds
    else d :: dictInsert ds x

/-- The player-keyed dicts `pts_map` / `time_map` of src lines 682-683
(combined into one association list, as they share their keys): iterating the
group rows in order, a later row of the same player overwrites an earlier
one — last write wins. -/
def buildPtsTimeDict (g : List Entry) : List MapEntry :=
  g.foldl (fun d e => dictInsert d ⟨e.player, e.total_pts, e.total_time⟩) []

/-- One row of `df_overview` (src lines 686-692): the raw entry plus the
`rank_best.get(p)` / `borda.get(p)` lookups. -/
structure OverviewRow where
  entry : Entry
  rank_best : Option ℚ
  borda_points : Option ℚ
deriving DecidableEq, Repr

/-- The `df_overview` rows built by `compute_week_tables` (src lines 679-694):
for each `(week, map_index)` group (in sorted group-key order), ranks are
computed on the player-keyed dicts, and every raw row of the group is emitted
with the rank/Borda of its player. -/
def overviewRows (entries : List Entry) (tm : TieMode) : List OverviewRow :=
  (groupKeys entries).flatMap fun wm =>
    let g := mapGroup entries wm.1 wm.2
    let rb := compute_rank_and_borda_with_time (buildPtsTimeDict g) tm
    g.map fun e => ⟨e, rb.1.lookup e.player, rb.2.lookup e.player⟩

/-- The `weekly_borda` aggregate of `df_weekly` (src lines 697-706) at one
`(week, player)` cell: the sum of `borda_points` over that player's overview
rows of that week. -/
def weeklyBorda (entries : List Entry) (tm : TieMode) (w p : String) : ℚ :=
  (((overviewRows entries tm).filter fun r =>
      r.entry.week_label = w ∧ r.entry.player = p).map
    fun r => r.borda_points.getD 0).sum

/-- C5: an entry passes the deadline filter iff it came from the input and:
its week has no configured deadline; or its played-at time is unknown and
`keep_missing_time` is set; or its played-at time is at most the deadline. -/
theorem C5_deadline_filter (entries : List Entry) (dls : List (String × Int))
    (kmt : Bool) (e : Entry) :
    e ∈ filter_entries_by_deadlines entries dls kmt ↔
      e ∈ entries ∧
        ((dls.lookup e.week_label = none) ∨
         ∃ dl, dls.lookup e.week_label = some dl ∧
           ((e.played_at_epoch = none ∧ kmt = true) ∨
            ∃ t, e.played_at_epoch = some t ∧ t ≤ dl)) := by
  rw [filter_entries_by_deadlines, List.mem_filter]
  refine and_congr_right fun _ => ?_
  unfold keepEntry
  cases hdl : dls.lookup e.week_label with
  | none => simp
  | some dl =>
    cases hpa : e.played_at_epoch with
    | none => simp
    | some t => simp

/-! ### The report decision of `main` -/

/-- The run configuration relevant to the report decision (src lines
1045-1100): each week's parsed deadline epoch (when configured), plus the
`--fetch-played-at`, `--keep-missing-time` and `--tie` flags. -/
structure RunConfig where
  weeks : List (String × Option Int)
  fetch_played_at : Bool
  keep_missing_time : Bool
  tie : TieMode

/-- The `deadlines_epoch` dict of src lines 1062-1065: one binding per week
with a configured deadline. -/
def deadlines_epoch (weeks : List (String × Option Int)) : List (String × Int) :=
  weeks.filterMap fun wd => wd.2.map fun d => (wd.1, d)

/-- Report decision of `main` (src lines 1087-1144): the unfiltered tables are
always produced; `can_filter = bool(deadlines_epoch) and
bool(args.fetch_played_at) and any_played_at` (src line 1092) gates the whole
second, filtered report (src lines 1094-1099 and 1130-1144).  `any_played_at`
is the flag accumulated in src lines 595-596 and 1084: true iff some built
entry resolved a played-at timestamp. -/
def mainModel (cfg : RunConfig) (all_entries : List Entry) :
    List OverviewRow × Option (List OverviewRow) :=
  let dls := deadlines_epoch cfg.weeks
  let any_played_at := all_entries.any fun e => e.played_at_epoch.isSome
  let tables_all := overviewRows all_entries cfg.tie
  let can_filter := (!dls.isEmpty) && cfg.fetch_played_at && any_played_at
  if can_filter then
    (tables_all, some (overviewRows
      (filter_entries_by_deadlines all_entries dls cfg.keep_missing_time) cfg.tie))
  else
    (tables_all, none)

/-- C8: the unfiltered report is always produced; the second (filtered) report
is produced iff some week has a configured deadline, played-at lookup was
requested, and some entry resolved a timestamp — and when it is produced it is
the table family of the deadline-filtered entries. -/
theorem C8_filtered_report_iff (cfg : RunConfig) (es : List Entry) :
    (mainModel cfg es).1 = overviewRows es cfg.tie ∧
    (((mainModel cfg es).2 ≠ none) ↔
      ((∃ w d, (w, some d) ∈ cfg.weeks) ∧ cfg.fetch_played_at = true ∧
        ∃ e ∈ es, e.played_at_epoch ≠ none)) ∧
    ((mainModel cfg es).2 ≠ none →
      (mainModel cfg es).2 = some (overviewRows
        (filter_entries_by_deadlines es (deadlines_epoch cfg.weeks) cfg.keep_missing_time)
        cfg.tie)) := by
  have hdlne : ((!(deadlines_epoch cfg.weeks).isEmpty) = true) ↔
      (∃ w d, (w, some d) ∈ cfg.weeks) := by
    rw [Bool.not_eq_true']
    constructor
    · intro h
      rcases hne : deadlines_epoch cfg.weeks with _ | ⟨⟨w, d⟩, rest⟩
      · rw [hne] at h; simp at h
      · have : (w, d) ∈ deadlines_epoch cfg.weeks := by rw [hne]; exact List.mem_cons_self _ _
        obtain ⟨wd, hwd, hmap⟩ := List.mem_filterMap.1 this
        cases hd2 : wd.2 with
        | none => rw [hd2] at hmap; simp at hmap
        | some d0 =>
          rw [hd2] at hmap
          simp only [Option.map_some', Option.some.injEq] at hmap
          refine ⟨wd.1, d0, ?_⟩
          have hwd2 : wd = (wd.1, some d0) := by
            rw [← hd2]
          rw [← hwd2]
          exact hwd
    · rintro ⟨w, d, hw⟩
      have hmem : (w, d) ∈ deadlines_epoch cfg.weeks :=
        List.mem_filterMap.2 ⟨(w, some d), hw, rfl⟩
      cases hne : deadlines_epoch cfg.weeks with
      | nil => rw [hne] at hmem; simp at hmem
      | cons x rest => rfl
  have hany : ((es.any fun e => e.played_at_epoch.isSome) = true) ↔
      (∃ e ∈ es, e.played_at_epoch ≠ none) := by
    rw [List.any_eq_true]
    constructor
    · rintro ⟨e, he, hs⟩
      exact ⟨e, he, Option.isSome_iff_ne_none.1 hs⟩
    · rintro ⟨e, he, hs⟩
      exact ⟨e, he, Option.isSome_iff_ne_none.2 hs⟩
  unfold mainModel
  by_cases h : ((!(deadlines_epoch cfg.weeks).isEmpty) && cfg.fetch_played_at &&
      (es.any fun e => e.played_at_epoch.isSome)) = true
  · rw [if_pos h]
    simp only [Bool.and_eq_true] at h
    refine ⟨rfl, ?_, fun _ => rfl⟩
    simp only [ne_eq, Option.some_ne_none, not_false_eq_true, true_iff]
    exact ⟨hdlne.1 h.1.1, h.1.2, hany.1 h.2⟩
  · rw [if_neg h]
    refine ⟨rfl, ?_, fun hne => absurd rfl hne⟩
    simp only [ne_eq, not_true_eq_false, false_iff]
    rintro ⟨h1, h2, h3⟩
    exact h (by
      simp only [Bool.and_eq_true]
      exact ⟨⟨hdlne.2 h1, h2⟩, hany.2 h3⟩)

/-! ### Last-write-wins properties of the player dict -/

theorem mem_players_dictInsert (d : List MapEntry) (x : MapEntry) (q : String) :
    q ∈ (dictInsert d x).map MapEntry.player ↔
      q ∈ d.map MapEntry.player ∨ q = x.player := by
  induction d with
  | nil => simp [dictInsert]
  | cons y ds ih =>
    by_cases h : (y.player == x.player) = true
    · have hyx : y.player = x.player := beq_iff_eq.1 h
      simp only [dictInsert, if_pos h, List.map_cons, List.mem_cons]
      constructor
      · rintro (hq | hq)
        · exact Or.inl (Or.inl hq)
        · exact Or.inl (Or.inr hq)
      · rintro ((hq | hq) | hq)
        · exact Or.inl hq
        · exact Or.inr hq
        · exact Or.inl (by rw [hq, ← hyx])
    · simp only [dictInsert, if_neg h, List.map_cons, List.mem_cons, ih]
      tauto

theorem dictInsert_players_nodup {d : List MapEntry} (hnd : (d.map MapEntry.player).Nodup)
    (x : MapEntry) : ((dictInsert d x).map MapEntry.player).Nodup := by
  induction d with
  | nil => simp [dictInsert]
  | cons y ds ih =>
    rw [List.map_cons, List.nodup_cons] at hnd
    by_cases h : (y.player == x.player) = true
    · simp only [dictInsert, if_pos h, List.map_cons]
      exact List.nodup_cons.2 hnd
    · simp only [dictInsert, if_neg h, List.map_cons]
      refine List.nodup_cons.2 ⟨?_, ih hnd.2⟩
      intro hmem
      rcases (mem_players_dictInsert ds x y.player).1 hmem with hm | hm
      · exact hnd.1 hm
      · exact absurd (beq_iff_eq.2 hm) (by simpa using h)

theorem buildDict_players_nodup_aux :
    ∀ (g : List Entry) (d : List MapEntry), (d.map MapEntry.player).Nodup →
      (((g.foldl (fun d e => dictInsert d ⟨e.player, e.total_pts, e.total_time⟩) d).map
        MapEntry.player).Nodup) := by
  intro g
  induction g with
  | nil => intro d hd; exact hd
  | cons e g ih =>
    intro d hd
    exact ih _ (dictInsert_players_nodup hd _)

theorem buildPtsTimeDict_players_nodup (g : List Entry) :
    ((buildPtsTimeDict g).map MapEntry.player).Nodup :=
  buildDict_players_nodup_aux g [] (by simp)

theorem find?_player_cons (y : MapEntry) (ds : List MapEntry) (p : String) :
    (y :: ds).find? (fun z => z.player == p) =
      if y.player = p then some y else ds.find? (fun z => z.player == p) := by
  by_cases h : y.player = p
  · rw [if_pos h]
    exact List.find?_cons_of_pos _ (beq_iff_eq.2 h)
  · rw [if_neg h]
    exact List.find?_cons_of_neg _ (by simpa using h)

theorem find?_dictInsert (d : List MapEntry) (x : MapEntry) (p : String) :
    (dictInsert d x).find? (fun y => y.player == p) =
      if x.player = p then some ⟨x.player, x.pts, x.time⟩
      else d.find? (fun y => y.player == p) := by
  induction d with
  | nil =>
    simp only [dictInsert, find?_player_cons, List.find?_nil]
  | cons y ds ih =>
    by_cases hyx : (y.player == x.player) = true
    · have hyx' : y.player = x.player := beq_iff_eq.1 hyx
      by_cases h : x.player = p
      · simp [dictInsert, hyx, find?_player_cons, hyx', h]
      · simp [dictInsert, hyx, find?_player_cons, hyx', h]
    · have hyx' : ¬ y.player = x.player := by simpa using hyx
      by_cases hyp : y.player = p
      · have hxp : ¬ x.player = p := fun hxp => hyx' (by rw [hyp, hxp])
        have hpx : ¬ p = x.player := fun hh => hyx' (by rw [hyp, hh])
        simp [dictInsert, hyx, find?_player_cons, hyp, hxp, hpx]
      · simp [dictInsert, hyx, find?_player_cons, hyp, ih]

theorem find?_entry_cons (y : Entry) (ds : List Entry) (p : String) :
    (y :: ds).find? (fun z => z.player == p) =
      if y.player = p then some y else ds.find? (fun z => z.player == p) := by
  by_cases h : y.player = p
  · rw [if_pos h]
    exact List.find?_cons_of_pos _ (beq_iff_eq.2 h)
  · rw [if_neg h]
    exact List.find?_cons_of_neg _ (by simpa using h)

theorem buildDict_find_aux (g : List Entry) :
    ∀ (d : List MapEntry) (p : String),
      ((g.foldl (fun d e => dictInsert d ⟨e.player, e.total_pts, e.total_time⟩) d).find?
          (fun y => y.player == p)) =
        ((g.reverse.find? (fun e => e.player == p)).map
          (fun e => (⟨e.player, e.total_pts, e.total_time⟩ : MapEntry))).or
          (d.find? (fun y => y.player == p)) := by
  induction g with
  | nil => intro d p; simp
  | cons e g ih =>
    intro d p
    simp only [List.foldl_cons, List.reverse_cons]
    rw [ih, List.find?_append]
    cases hfind : g.reverse.find? (fun e => e.player == p) with
    | some e0 => rfl
    | none =>
      simp only [Option.map_none', Option.none_or]
      rw [find?_dictInsert]
      by_cases h : e.player = p
      · rw [if_pos h]
        have hfe : List.find? (fun e2 => e2.player == p) [e] = some e := by
          rw [find?_entry_cons, if_pos h]
        rw [hfe]
        rfl
      · rw [if_neg h]
        have hfe : List.find? (fun e2 => e2.player == p) [e] = none := by
          rw [find?_entry_cons, if_neg h, List.find?_nil]
        rw [hfe]
        rfl

/-- Last write wins: after building the per-map player dict, a player's
binding carries the points/time of their **last** row in the group. -/
theorem buildPtsTimeDict_find (g : List Entry) (p : String) :
    (buildPtsTimeDict g).find? (fun y => y.player == p) =
      (g.reverse.find? (fun e => e.player == p)).map
        (fun e => (⟨e.player, e.total_pts, e.total_time⟩ : MapEntry)) := by
  rw [buildPtsTimeDict, buildDict_find_aux g [] p, List.find?_nil]
  cases (g.reverse.find? (fun e => e.player == p)).map
      (fun e => (⟨e.player, e.total_pts, e.total_time⟩ : MapEntry)) with
  | none => rfl
  | some x => rfl

/-! ### One overview row per raw entry -/

theorem countP_cons_mem_split_wkeys (l : List Entry) (key : String × ℕ)
    (ks : List (String × ℕ)) (hk : key ∉ ks) :
    l.countP (fun e => decide ((e.week_label, e.map_index) ∈ key :: ks)) =
      l.countP (fun e => decide ((e.week_label, e.map_index) ∈ ks)) +
        l.countP (fun e => decide ((e.week_label, e.map_index) = key)) := by
  induction l with
  | nil => simp
  | cons e l ih =>
    simp only [List.countP_cons, ih]
    by_cases h1 : (e.week_label, e.map_index) = key
    · have h2 : (e.week_label, e.map_index) ∉ ks := h1 ▸ hk
      simp [h1, h2, hk, List.mem_cons]
      omega
    · by_cases h2 : (e.week_label, e.map_index) ∈ ks
      · simp [h1, h2, List.mem_cons]
        omega
      · simp [h1, h2, List.mem_cons]

theorem groupKeys_nodup (entries : List Entry) : (groupKeys entries).Nodup :=
  (List.perm_insertionSort wmLe _).nodup_iff.2 (List.nodup_dedup _)

theorem mem_groupKeys {entries : List Entry} {wm : String × ℕ} :
    wm ∈ groupKeys entries ↔ ∃ e ∈ entries, (e.week_label, e.map_index) = wm := by
  rw [groupKeys, (List.perm_insertionSort wmLe _).mem_iff, List.mem_dedup, List.mem_map]

theorem mapGroup_length (entries : List Entry) (key : String × ℕ) :
    (mapGroup entries key.1 key.2).length =
      entries.countP (fun e => decide ((e.week_label, e.map_index) = key)) := by
  rw [mapGroup, ← List.countP_eq_length_filter]
  refine List.countP_congr ?_
  intro e he
  simp only [decide_eq_true_iff]
  constructor
  · rintro ⟨h1, h2⟩
    exact Prod.ext h1 h2
  · intro h
    exact ⟨congrArg Prod.fst h, congrArg Prod.snd h⟩

theorem sum_group_lengths (entries : List Entry) :
    ∀ (ks : List (String × ℕ)), ks.Nodup →
      (ks.map fun wm => (mapGroup entries wm.1 wm.2).length).sum =
        entries.countP (fun e => decide ((e.week_label, e.map_index) ∈ ks)) := by
  intro ks
  induction ks with
  | nil => simp
  | cons key ks ih =>
    intro hnd
    rw [List.map_cons, List.sum_cons, ih (List.nodup_cons.1 hnd).2,
      countP_cons_mem_split_wkeys entries key ks (List.nodup_cons.1 hnd).1,
      mapGroup_length]
    omega

/-- `df_overview` has exactly one row per raw entry: duplicates are not
collapsed in the emitted table. -/
theorem overviewRows_length (entries : List Entry) (tm : TieMode) :
    (overviewRows entries tm).length = entries.length := by
  rw [overviewRows, List.length_flatMap]
  have hbody : (List.map (List.length ∘ fun wm =>
      let g := mapGroup entries wm.1 wm.2;
      let rb := compute_rank_and_borda_with_time (buildPtsTimeDict g) tm;
      g.map fun e => (⟨e, rb.1.lookup e.player, rb.2.lookup e.player⟩ : OverviewRow))
        (groupKeys entries)) =
      (groupKeys entries).map fun wm => (mapGroup entries wm.1 wm.2).length := by
    refine List.map_congr_left ?_
    intro wm _
    simp [Function.comp]
  rw [hbody, sum_group_lengths entries (groupKeys entries) (groupKeys_nodup entries)]
  exact List.countP_eq_length.2 fun e he =>
    decide_eq_true (mem_groupKeys.2 ⟨e, he, rfl⟩)

def exDupA : Entry := ⟨"W1", 1, "", "", "", "", "X", 100, 60, none⟩
def exDupB : Entry := ⟨"W1", 1, "", "", "", "", "X", 50, 90, none⟩
def exDup : List Entry := [exDupA, exDupB]

/-- C3: duplicate raw entries of one player on one map are NOT collapsed in
the produced tables: the per-map table carries two rows for `X`, and the
weekly Borda sum counts X's Borda once per duplicate row (2 instead of 1). -/
theorem C3_duplicates_counterexample :
    ((overviewRows exDup TieMode.average).map fun r => r.entry.player) = ["X", "X"] ∧
    weeklyBorda exDup TieMode.average "W1" "X" = 2 := by
  constructor <;>
    simp [overviewRows, groupKeys, mapGroup, buildPtsTimeDict, dictInsert, weeklyBorda, wmLe,
      compute_rank_and_borda_with_time, rankAssign, sortedKeys, groupMembers, groupVal, stepInc,
      keyOf, exDup, exDupA, exDupB, List.insertionSort, List.orderedInsert, keyLe, keyLt,
      List.dedup, lookup_cons_if, List.range'] <;> norm_num

/-- C3 (amended): the ranker's per-map input dict has unique player keys and
binds each player to the points/time of their last-seen row (last write wins);
but the emitted per-map table keeps one row per raw entry, so duplicates
survive into the tables (and into the weekly/season sums). -/
theorem C3_last_write_wins_amended (entries : List Entry) (tm : TieMode)
    (g : List Entry) (p : String) :
    ((buildPtsTimeDict g).map MapEntry.player).Nodup ∧
    ((buildPtsTimeDict g).find? (fun y => y.player == p) =
      (g.reverse.find? (fun e => e.player == p)).map
        (fun e => (⟨e.player, e.total_pts, e.total_time⟩ : MapEntry))) ∧
    (overviewRows entries tm).length = entries.length :=
  ⟨buildPtsTimeDict_players_nodup g, buildPtsTimeDict_find g p,
    overviewRows_length entries tm⟩

/-! ### Raw items and the normalizer -/

/-- The fields of one raw highscores item that the normalizer reads
(src lines 232-282 and 571-576); `none` models an absent or non-conforming
field (the `try/except` fallbacks). -/
structure RawItem where
  hasGame : Bool
  nick : Option String
  scoreAmount : Option String
  scoreInPoints : Option Int
  totalTime : Option Int
deriving DecidableEq, Repr

/-- Python `str.strip()`, structurally on the character list. -/
def pyStrip (s : String) : String :=
  String.mk (((s.data.dropWhile Char.isWhitespace).reverse.dropWhile
    Char.isWhitespace).reverse)

/-- Python `str.replace(",", "")`: drop every comma. -/
def pyRemoveCommas (s : String) : String :=
  String.mk (s.data.filter fun c => c ≠ ',')

/-- Value of a decimal digit string. -/
def digitsToNat (cs : List Char) : ℕ :=
  cs.foldl (fun n c => 10 * n + (c.toNat - '0'.toNat)) 0

/-- The string branch of `_parse_int_maybe` (src lines 181-184): strip, drop
commas, and accept a non-empty all-digit string. -/
def _parse_int_maybe_str (s : String) : Option Int :=
  let t := pyRemoveCommas (pyStrip s)
  if t.data ≠ [] ∧ t.data.all Char.isDigit then some ((digitsToNat t.data : ℕ) : Int)
  else none

/-- Embedding of `player_name_from_item` (src lines 232-239): the stripped
nick when present and non-blank, else the sentinel `"UNKNOWN"`. -/
def player_name_from_item (it : RawItem) : String :=
  match it.nick with
  | some nick => if pyStrip nick ≠ "" then pyStrip nick else "UNKNOWN"
  | none => "UNKNOWN"

/-- Embedding of `total_points_from_item` (src lines 242-260): prefer the
string `totalScore.amount`, fall back to `totalScoreInPoints`, default 0. -/
def total_points_from_item (it : RawItem) : Int :=
  match it.scoreAmount.bind _parse_int_maybe_str with
  | some v => v
  | none =>
    match it.scoreInPoints with
    | some v => v
    | none => 0

/-- Embedding of `total_time_from_item` (src lines 263-271): default to the
`10^12` sentinel. -/
def total_time_from_item (it : RawItem) : Int :=
  match it.totalTime with
  | some v => v
  | none => 10 ^ 12

/-- The per-item normalization loop of `build_week_entries` for one map
(src lines 571-611): items without a game payload are skipped, items whose
extracted name is the sentinel `"UNKNOWN"` are skipped, the rest become
entries.  `playedAt` abstracts the out-of-scope remote played-at lookup and
cache of src lines 580-593. -/
def build_map_entries (week_label : String) (map_idx : ℕ)
    (url token map_name rule_text : String)
    (playedAt : RawItem → Option Int) (items : List RawItem) : List Entry :=
  items.filterMap fun it =>
    if it.hasGame = false then none
    else
      let name := player_name_from_item it
      if name = "UNKNOWN" then none
      else some {
        week_label := week_label
        map_index := map_idx
        map_url := url
        map_token := token
        map_name := if map_name ≠ "" then map_name else "Map " ++ toString map_idx
        rule_text := rule_text
        player := name
        total_pts := total_points_from_item it
        total_time := total_time_from_item it
        played_at_epoch := playedAt it }

/-- C9: a real nick that strips to exactly `"UNKNOWN"` collides with the
missing-name sentinel: `player_name_from_item` returns the sentinel, the
normalizer drops the item exactly as if the nick were missing, and no
produced entry ever carries the player name `"UNKNOWN"`. -/
theorem C9_unknown_nick_collides (it : RawItem) (s : String)
    (hn : it.nick = some s) (hs : pyStrip s = "UNKNOWN") :
    player_name_from_item it = "UNKNOWN" ∧
    player_name_from_item it = player_name_from_item { it with nick := none } ∧
    (∀ (wl : String) (mi : ℕ) (url tok mn rt : String) (pa : RawItem → Option Int)
        (l1 l2 : List RawItem),
      build_map_entries wl mi url tok mn rt pa (l1 ++ it :: l2) =
        build_map_entries wl mi url tok mn rt pa (l1 ++ l2)) ∧
    (∀ (wl : String) (mi : ℕ) (url tok mn rt : String) (pa : RawItem → Option Int)
        (items : List RawItem) (e : Entry),
      e ∈ build_map_entries wl mi url tok mn rt pa items → e.player ≠ "UNKNOWN") := by
  have h1 : player_name_from_item it = "UNKNOWN" := by
    unfold player_name_from_item
    rw [hn]
    show (if pyStrip s ≠ "" then pyStrip s else "UNKNOWN") = "UNKNOWN"
    rw [hs]
    simp
  refine ⟨h1, ?_, ?_, ?_⟩
  · rw [h1]
    rfl
  · intro wl mi url tok mn rt pa l1 l2
    unfold build_map_entries
    rw [List.filterMap_append, List.filterMap_append]
    congr 1
    refine List.filterMap_cons_none ?_
    by_cases hg : it.hasGame = false
    · rw [if_pos hg]
    · rw [if_neg hg]
      simp [h1]
  · intro wl mi url tok mn rt pa items e he
    obtain ⟨a, ha, hfa⟩ := List.mem_filterMap.1 he
    by_cases hg : a.hasGame = false
    · rw [if_pos hg] at hfa
      exact absurd hfa (by simp)
    · rw [if_neg hg] at hfa
      by_cases hun : player_name_from_item a = "UNKNOWN"
      · simp only [hun, if_pos rfl] at hfa
        exact absurd hfa (by simp)
      · simp only [if_neg hun] at hfa
        intro hep
        apply hun
        rw [← (Option.some.inj hfa)] at hep
        exact hep

/-! ### Played-at extraction -/

/-- A JSON-like payload value: the shape of the game-details responses
scanned by `extract_played_at_epoch`. -/
inductive JVal where
  | num (v : Int)
  | str (s : String)
  | bool (b : Bool)
  | null
  | obj (fields : List (String × JVal))
  | arr (elems : List JVal)

/-- The `EPOCH_RE` test `^\d{10,13}$` (src line 33). -/
def epochReMatch (s : String) : Bool :=
  decide (10 ≤ s.data.length) && decide (s.data.length ≤ 13) && s.data.all Char.isDigit

/-- The `ISO_RE` prefix test `^\d{4}-\d{2}-\d{2}` (src line 32). -/
def isoDateMatch (s : String) : Bool :=
  match s.data with
  | c0 :: c1 :: c2 :: c3 :: d1 :: c4 :: c5 :: d2 :: c6 :: c7 :: _ =>
    c0.isDigit && c1.isDigit && c2.isDigit && c3.isDigit && (d1 == '-') &&
      c4.isDigit && c5.isDigit && (d2 == '-') && c6.isDigit && c7.isDigit
  | _ => false

/-- Embedding of `_try_parse_epoch` (src lines 364-398): `None`, `bool`,
dicts and lists parse to nothing; a number above `10^10` is epoch
milliseconds, above `10^9` epoch seconds, at most `10^9` implausible; a
10-13 digit string is treated the same way; otherwise an ISO-looking string
is handed to the (out-of-scope) `pandas.to_datetime`, abstracted here as the
`isoParse` parameter. -/
def _try_parse_epoch (isoParse : String → Option Int) : JVal → Option Int
  | JVal.null => none
  | JVal.bool _ => none
  | JVal.num x =>
    if x > 10000000000 then some (x / 1000)
    else if x > 1000000000 then some x
    else none
  | JVal.str s0 =>
    let s := pyStrip s0
    if epochReMatch s then
      let x : Int := ((digitsToNat s.data : ℕ) : Int)
      if x > 10000000000 then some (x / 1000)
      else if x > 1000000000 then some x
      else if isoDateMatch s then isoParse s else none
    else if isoDateMatch s then isoParse s else none
  | JVal.obj _ => none
  | JVal.arr _ => none

/-- Substring containment on character lists (Python `pat in hay`). -/
def listContains (hay pat : List Char) : Bool :=
  match hay with
  | [] => pat.isEmpty
  | _ :: t => pat.isPrefixOf hay || listContains t pat

def strContains (hay pat : String) : Bool :=
  listContains hay.data pat.data

/-- Python `str.lower()`, structurally on the character list. -/
def pyLower (s : String) : String :=
  String.mk (s.data.map Char.toLower)

/-- The exact candidate key set of src lines 407-412. -/
def candidate_keys : List String :=
  ["createdat", "created", "updatedat", "updated",
   "finishedat", "endedat", "endtime", "completedat", "completed",
   "startedat", "starttime",
   "timestamp", "time"]

/-- The candidate-key test of src line 419: the lowercased key is an exact
candidate, or contains a timestamp-ish substring. -/
def keyMatches (k : String) : Bool :=
  let lk := pyLower k
  decide (lk ∈ candidate_keys) ||
    ["created", "finished", "ended", "completed", "start", "end", "updated"].any
      (fun x => strContains lk x)

mutual
/-- Embedding of `_iter_all_dicts` (src lines 354-361): every dict reachable
in the payload, parents before their children. -/
def allDicts : JVal → List (List (String × JVal))
  | JVal.obj fs => fs :: allDictsFields fs
  | JVal.arr es => allDictsList es
  | _ => []

def allDictsFields : List (String × JVal) → List (List (String × JVal))
  | [] => []
  | kv :: rest => allDicts kv.2 ++ allDictsFields rest

def allDictsList : List JVal → List (List (String × JVal))
  | [] => []
  | v :: rest => allDicts v ++ allDictsList rest
end

/-- The candidate timestamps one dict contributes (src lines 417-421). -/
def tryKeyVals (isoParse : String → Option Int) (d : List (String × JVal)) : List Int :=
  d.filterMap fun kv => if keyMatches kv.1 then _try_parse_epoch isoParse kv.2 else none

/-- Embedding of `extract_played_at_epoch` (src lines 401-427): scan every
dict, parse every candidate-keyed value, keep the latest plausible one. -/
def extract_played_at_epoch (isoParse : String → Option Int) (payload : JVal) : Option Int :=
  ((allDicts payload).flatMap (tryKeyVals isoParse)).foldl
    (fun best ep =>
      match best with
      | none => some ep
      | some b => if ep > b then some ep else some b)
    none

/-- C10: a numeric value `v` with `0 < v ≤ 10^9` is rejected by the epoch
parser (moments up to 2001-09-09 are implausible), and therefore can never be
resolved by the played-at extractor: adding such a numeric field to a payload
leaves the extracted timestamp unchanged. -/
theorem C10_small_epoch_rejected (isoParse : String → Option Int) (v : Int)
    (h1 : 0 < v) (h2 : v ≤ 1000000000) :
    _try_parse_epoch isoParse (JVal.num v) = none ∧
    ∀ (k : String) (fs : List (String × JVal)),
      extract_played_at_epoch isoParse (JVal.obj ((k, JVal.num v) :: fs)) =
        extract_played_at_epoch isoParse (JVal.obj fs) := by
  have hp : _try_parse_epoch isoParse (JVal.num v) = none := by
    simp only [_try_parse_epoch]
    rw [if_neg (by omega), if_neg (by omega)]
  refine ⟨hp, ?_⟩
  intro k fs
  unfold extract_played_at_epoch
  congr 1
  have hd : allDicts (JVal.obj ((k, JVal.num v) :: fs)) =
      ((k, JVal.num v) :: fs) :: allDictsFields fs := by
    rw [allDicts, allDictsFields]
    rw [show allDicts (k, JVal.num v).2 = [] from rfl]
    rfl
  have hk : tryKeyVals isoParse ((k, JVal.num v) :: fs) = tryKeyVals isoParse fs := by
    unfold tryKeyVals
    refine List.filterMap_cons_none ?_
    by_cases hkm : keyMatches (k, JVal.num v).1 = true
    · rw [if_pos hkm]
      exact hp
    · rw [if_neg hkm]
  rw [hd, allDicts]
  rw [List.flatMap_cons, List.flatMap_cons, hk]

/-! ### Witnesses -/

theorem C1_borda_conservation_amended_witness :
    bordaSum exTie TieMode.average = (exTie.length : ℚ) * (exTie.length + 1) / 2 :=
  C1_borda_conservation_amended exTie TieMode.average (by decide) (by decide) (Or.inl rfl)

theorem C4_order_independence_witness :
    (compute_rank_and_borda_with_time [exA, exB, exC] TieMode.average).1.lookup "A" =
      (compute_rank_and_borda_with_time [exC, exB, exA] TieMode.average).1.lookup "A" ∧
    (compute_rank_and_borda_with_time [exA, exB, exC] TieMode.average).2.lookup "A" =
      (compute_rank_and_borda_with_time [exC, exB, exA] TieMode.average).2.lookup "A" :=
  C4_order_independence [exA, exB, exC] [exC, exB, exA] TieMode.average
    (by decide) (by decide) "A"

theorem C6_min_le_average_le_max_witness :
    ∃ rmin ravg rmax : ℚ,
      (compute_rank_and_borda_with_time exTie TieMode.min).1.lookup exA.player = some rmin ∧
      (compute_rank_and_borda_with_time exTie TieMode.average).1.lookup exA.player = some ravg ∧
      (compute_rank_and_borda_with_time exTie TieMode.max).1.lookup exA.player = some rmax ∧
      rmin ≤ ravg ∧ ravg ≤ rmax :=
  C6_min_le_average_le_max exTie (by decide) exA (by decide)

theorem C7_dense_ranks_no_gaps_witness :
    (∃ pr ∈ (compute_rank_and_borda_with_time exTie TieMode.dense).1, pr.2 = 2) ↔
      ∃ i : ℕ, 1 ≤ i ∧ i ≤ distinctKeyCount exTie ∧ (2 : ℚ) = (i : ℚ) :=
  C7_dense_ranks_no_gaps exTie (by decide) (by decide) 2

def exUnknownItem : RawItem := ⟨true, some " UNKNOWN ", none, none, none⟩

theorem C9_unknown_nick_collides_witness :
    player_name_from_item exUnknownItem = "UNKNOWN" ∧
    build_map_entries "W1" 1 "" "" "" "" (fun _ => none) [exUnknownItem] =
      build_map_entries "W1" 1 "" "" "" "" (fun _ => none) [] :=
  ⟨(C9_unknown_nick_collides exUnknownItem " UNKNOWN " rfl (by decide)).1,
   by
     have h := (C9_unknown_nick_collides exUnknownItem " UNKNOWN " rfl (by decide)).2.2.1
       "W1" 1 "" "" "" "" (fun _ => none) [] []
     simpa using h⟩

theorem C10_small_epoch_rejected_witness :
    _try_parse_epoch (fun _ => none) (JVal.num 5) = none ∧
    extract_played_at_epoch (fun _ => none) (JVal.obj [("createdAt", JVal.num 5)]) =
      extract_played_at_epoch (fun _ => none) (JVal.obj []) :=
  ⟨(C10_small_epoch_rejected (fun _ => none) 5 (by decide) (by decide)).1,
   (C10_small_epoch_rejected (fun _ => none) 5 (by decide) (by decide)).2 "createdAt" []⟩
